import Mathlib

/-!
Verification development for the texture-packer repository.

The repository's `src/main.rs` registers each decoded source image as a
rectangle (`push_rect`), runs a retry loop around `pack_rects` that grows the
bin count from 1 up to a hard ceiling of 32 (panicking when the ceiling is
exceeded), composites the resulting placements into zero-initialized
luminance+alpha pixel buffers via nested `put_pixel` loops, and emits an atlas
description whose frames record a layer index per placement.

The rectangle-packing engine itself (`pack_rects`, `GroupedRectsToPlace`,
`contains_smallest_box`, `volume_heuristic`) is an external collaborator whose
source is not part of the repository, so it is modelled here from the spec's
description (sort by descending area with deterministic tie-breaks, per-bin
free-rectangle lists, smallest-leftover-area fit, guillotine split, whole
attempt fails when a rectangle fits nowhere).  The retry loop, the compositor
and the atlas-description step are embedded directly from `src/main.rs`.

Rectangle ids are `PathBuf`s in the code; they are modelled as `Nat`.  Bin ids
are the strings `atlas0 .. atlasN` held in a `BTreeMap`; inside the engine
model bins are indexed `0 .. k-1`.
-/

namespace TexturePacker

/-- An axis-aligned rectangle with integer coordinates, used both for free
rectangles inside a bin and for the geometric part of a placement.  The box
covers the half-open ranges `[x, x+w) × [y, y+h)`. -/
structure Box where
  x : Nat
  y : Nat
  w : Nat
  h : Nat
deriving DecidableEq, Repr

/-- An input rectangle: the id (modelling the source image's path) together
with the decoded image's dimensions, as registered by `push_rect` in
`src/main.rs`. -/
structure Rect where
  rid : Nat
  w : Nat
  h : Nat
deriving DecidableEq, Repr

/-- A placement produced by a packing attempt: the rectangle id, the index of
the bin it was assigned to, and the box it occupies inside that bin. -/
structure Placement where
  rid : Nat
  bin : Nat
  box : Box
deriving DecidableEq, Repr

/-- The point `(px, py)` lies inside box `b`. -/
def inBox (b : Box) (px py : Nat) : Prop :=
  b.x ≤ px ∧ px < b.x + b.w ∧ b.y ≤ py ∧ py < b.y + b.h

instance (b : Box) (px py : Nat) : Decidable (inBox b px py) := by
  unfold inBox; infer_instance

/-- Two boxes are separated by an axis: they share no interior column or no
interior row.  For boxes of positive size this is equivalent to having no
common point. -/
def separated (a b : Box) : Prop :=
  a.x + a.w ≤ b.x ∨ b.x + b.w ≤ a.x ∨ a.y + a.h ≤ b.y ∨ b.y + b.h ≤ a.y

instance (a b : Box) : Decidable (separated a b) := by
  unfold separated; infer_instance

/-- `inner` is contained in `outer`. -/
def subBox (inner outer : Box) : Prop :=
  outer.x ≤ inner.x ∧ inner.x + inner.w ≤ outer.x + outer.w ∧
  outer.y ≤ inner.y ∧ inner.y + inner.h ≤ outer.y + outer.h

instance (a b : Box) : Decidable (subBox a b) := by
  unfold subBox; infer_instance

/-- A rectangle fits into a free box when both dimensions fit. -/
def fitsB (r : Rect) (f : Box) : Bool :=
  r.w ≤ f.w && r.h ≤ f.h

/-- Area of a rectangle (the `volume_heuristic` of the engine with depth 1). -/
def Rect.area (r : Rect) : Nat := r.w * r.h

/-- Longer side of a rectangle, used as the first tie-break of the sort. -/
def Rect.maxSide (r : Rect) : Nat := max r.w r.h

/-- Modelled from the spec: the engine's placement order.  Rectangles are
sorted by descending area, ties broken by descending longer side, then by
ascending id, so the order is deterministic. -/
def rectBefore (a b : Rect) : Prop :=
  b.area < a.area ∨
    (a.area = b.area ∧ (b.maxSide < a.maxSide ∨ (a.maxSide = b.maxSide ∧ a.rid ≤ b.rid)))

instance : DecidableRel rectBefore := fun a b => by
  unfold rectBefore; infer_instance

/-- The deterministic processing order of the engine. -/
def sortRects (rects : List Rect) : List Rect :=
  List.insertionSort rectBefore rects

/-- All free boxes, over all bins, into which `r` fits, tagged with their bin
index, in bin order then free-list order. -/
def binCandidates (bins : List (List Box)) (r : Rect) : List (Nat × Box) :=
  (bins.enum.map (fun bf => (bf.2.filter (fun f => fitsB r f)).map (fun f => (bf.1, f)))).flatten

/-- Modelled from the spec: choose the candidate free box with the smallest
resulting leftover area (equivalently, since the rectangle is fixed, the
smallest candidate area), keeping the first candidate on ties. -/
def pickBest : List (Nat × Box) → Option (Nat × Box)
  | [] => none
  | c :: cs =>
      some (cs.foldl (fun best d => if d.2.w * d.2.h < best.2.w * best.2.h then d else best) c)

/-- Modelled from the spec: the guillotine split.  Placing `r` at the corner
of free box `f` leaves up to two new free boxes: the strip to the right of the
placed rectangle and the full-width strip below it.  Degenerate (zero-area)
remainders are dropped. -/
def splitFree (f : Box) (r : Rect) : List Box :=
  [Box.mk (f.x + r.w) f.y (f.w - r.w) r.h,
   Box.mk f.x (f.y + r.h) f.w (f.h - r.h)].filter (fun g => 0 < g.w && 0 < g.h)

/-- The engine's state during one attempt: one free-box list per bin, and the
placements committed so far (most recent first). -/
structure PackState where
  bins : List (List Box)
  placed : List Placement
deriving DecidableEq, Repr

/-- Modelled from the spec: place one rectangle.  Scan every bin's free list
for the best fitting free box; on success carve the placement out of it and
replace it by the guillotine remainders; when no free box fits, the whole
attempt fails. -/
def placeRect (st : PackState) (r : Rect) : Option PackState :=
  match pickBest (binCandidates st.bins r) with
  | none => none
  | some (b, f) =>
      some { bins := st.bins.set b (((st.bins.getD b []).erase f) ++ splitFree f r),
             placed := Placement.mk r.rid b (Box.mk f.x f.y r.w r.h) :: st.placed }

/-- The fresh bins for an attempt with `k` bins of side `S`: every bin starts
with a single free box covering the whole bin (`TargetBin::new` in
`src/main.rs`). -/
def initBins (k S : Nat) : List (List Box) :=
  List.replicate k [Box.mk 0 0 S S]

/-- Modelled from the spec: one packing attempt over `k` fresh bins of side
`S` (`pack_rects`).  Rectangles are processed in sorted order; the attempt
fails as a whole if any rectangle cannot be placed, and otherwise returns the
full placement list. -/
def packAttempt (rects : List Rect) (k S : Nat) : Option (List Placement) :=
  ((sortRects rects).foldlM placeRect (PackState.mk (initBins k S) [])).map PackState.placed

/-- Structural worker for the retry loop: `fuel` bounds the remaining
iterations (the loop itself is bounded by the hard 32-bin ceiling, so the
fuel is only a recursion measure and is never exhausted from the program's
entry point). -/
def packLoopAux (attempt : Nat → Option α) : Nat → Nat → List Nat × Option (Nat × α)
  | 0, _ => ([], none)
  | fuel + 1, k =>
      match attempt k with
      | some r => ([k], some (k, r))
      | none =>
          if k + 1 > 32 then ([k], none)
          else
            let rest := packLoopAux attempt fuel (k + 1)
            (k :: rest.1, rest.2)

/-- The retry loop of `src/main.rs` lines 83-106, with the list of attempted
bin counts recorded.  Starting at bin count `k` (the program starts at 1): try
the attempt; on success break with the placements; on failure rebuild the bin
set with one more bin, and panic (`none`) as soon as the rebuilt set exceeds
32 bins, i.e. without attempting a 33rd bin. -/
def packTrace (attempt : Nat → Option α) (k : Nat) : List Nat × Option (Nat × α) :=
  packLoopAux attempt (33 - k) k

/-- The whole packing phase of `main`: the retry loop run from one bin,
returning the successful bin count and placements, or `none` for the
capacity-exceeded panic. -/
def runPack (rects : List Rect) (S : Nat) : Option (Nat × List Placement) :=
  (packTrace (fun k => packAttempt rects k S) 1).2

/-- A box lies inside the square bin of side `S`. -/
def boxInBounds (S : Nat) (b : Box) : Prop :=
  b.x + b.w ≤ S ∧ b.y + b.h ≤ S

instance (S : Nat) (b : Box) : Decidable (boxInBounds S b) := by
  unfold boxInBounds; infer_instance

/-- A box with positive width and height. -/
def posBox (b : Box) : Prop := 0 < b.w ∧ 0 < b.h

instance (b : Box) : Decidable (posBox b) := by
  unfold posBox; infer_instance

theorem separated_symm {a b : Box} (h : separated a b) : separated b a := by
  unfold separated at h ⊢; omega

theorem separated_of_subBox {a f c : Box} (hs : subBox a f) (h : separated f c) :
    separated a c := by
  unfold subBox at hs; unfold separated at h ⊢; omega

theorem boxInBounds_of_subBox {S : Nat} {a f : Box} (hs : subBox a f)
    (h : boxInBounds S f) : boxInBounds S a := by
  unfold subBox at hs; unfold boxInBounds at h ⊢; omega

theorem not_inBox_of_separated {a b : Box} (h : separated a b) (px py : Nat) :
    ¬ (inBox a px py ∧ inBox b px py) := by
  unfold separated at h; unfold inBox; omega

theorem not_separated_self {a : Box} (ha : posBox a) : ¬ separated a a := by
  unfold posBox at ha; unfold separated; omega

theorem foldl_mem_of_choice {α : Type _} (f : α → α → α)
    (hf : ∀ a b, f a b = a ∨ f a b = b) :
    ∀ (l : List α) (a : α), l.foldl f a = a ∨ l.foldl f a ∈ l
  | [], _ => Or.inl rfl
  | b :: l, a => by
    simp only [List.foldl_cons]
    rcases foldl_mem_of_choice f hf l (f a b) with h | h
    · rcases hf a b with h2 | h2 <;> rw [h, h2]
      · exact Or.inl rfl
      · exact Or.inr (List.mem_cons_self _ _)
    · exact Or.inr (List.mem_cons_of_mem _ h)

theorem pickBest_mem {l : List (Nat × Box)} {c : Nat × Box} (h : pickBest l = some c) :
    c ∈ l := by
  match l, h with
  | d :: cs, h =>
    have hc : c = cs.foldl
        (fun best e => if e.2.w * e.2.h < best.2.w * best.2.h then e else best) d := by
      simpa [pickBest] using h.symm
    have hf : ∀ (a b : Nat × Box),
        (if b.2.w * b.2.h < a.2.w * a.2.h then b else a) = a ∨
        (if b.2.w * b.2.h < a.2.w * a.2.h then b else a) = b := by
      intro a b; split
      · exact Or.inr rfl
      · exact Or.inl rfl
    rcases foldl_mem_of_choice _ hf cs d with h1 | h1
    · rw [hc, h1]; exact List.mem_cons_self _ _
    · rw [hc]; exact List.mem_cons_of_mem _ h1

theorem binCandidates_mem {bins : List (List Box)} {r : Rect} {b : Nat} {f : Box}
    (h : (b, f) ∈ binCandidates bins r) :
    ∃ fl, bins[b]? = some fl ∧ f ∈ fl ∧ fitsB r f = true := by
  unfold binCandidates at h
  simp only [List.mem_flatten, List.mem_map] at h
  obtain ⟨l, ⟨⟨i, fl⟩, hmem, rfl⟩, hbf⟩ := h
  simp only [List.mem_map, List.mem_filter] at hbf
  obtain ⟨g, ⟨hg, hfit⟩, heq⟩ := hbf
  obtain ⟨rfl, rfl⟩ : i = b ∧ g = f := by
    refine ⟨?_, ?_⟩ <;> cases heq <;> rfl
  exact ⟨fl, List.mk_mem_enum_iff_getElem?.1 hmem, hg, hfit⟩

theorem fits_of_fitsB {r : Rect} {f : Box} (h : fitsB r f = true) :
    r.w ≤ f.w ∧ r.h ≤ f.h := by
  simpa [fitsB] using h

theorem splitFree_posBox {f : Box} {r : Rect} {g : Box} (hg : g ∈ splitFree f r) :
    posBox g := by
  unfold splitFree at hg
  have := (List.mem_filter.1 hg).2
  unfold posBox
  simpa using this

theorem splitFree_cases {f : Box} {r : Rect} {g : Box} (hg : g ∈ splitFree f r) :
    g = Box.mk (f.x + r.w) f.y (f.w - r.w) r.h ∨
    g = Box.mk f.x (f.y + r.h) f.w (f.h - r.h) := by
  unfold splitFree at hg
  have := (List.mem_filter.1 hg).1
  simpa using this

theorem splitFree_subBox {f : Box} {r : Rect} {g : Box} (hg : g ∈ splitFree f r)
    (hw : r.w ≤ f.w) (hh : r.h ≤ f.h) : subBox g f := by
  rcases splitFree_cases hg with rfl | rfl <;> (unfold subBox; simp; omega)

theorem splitFree_separated_placed {f : Box} {r : Rect} {g : Box}
    (hg : g ∈ splitFree f r) : separated (Box.mk f.x f.y r.w r.h) g := by
  rcases splitFree_cases hg with rfl | rfl <;> (unfold separated; simp)

theorem splitFree_pairwise (f : Box) (r : Rect) : (splitFree f r).Pairwise separated := by
  unfold splitFree
  apply List.Pairwise.sublist (List.filter_sublist _)
  refine List.pairwise_cons.2 ⟨?_, List.pairwise_singleton _ _⟩
  intro g hg
  simp only [List.mem_singleton] at hg
  subst hg
  unfold separated
  simp

/-- The engine's per-attempt invariant: every free box is inside its bin,
has positive size, free boxes of one bin are pairwise separated, every
placement is assigned to an existing bin and lies inside it, placements
sharing a bin are pairwise separated, and every placement is separated from
every free box of its bin. -/
structure Inv (S : Nat) (st : PackState) : Prop where
  freeBounds : ∀ fl ∈ st.bins, ∀ f ∈ fl, boxInBounds S f
  freePos : ∀ fl ∈ st.bins, ∀ f ∈ fl, posBox f
  freeSep : ∀ fl ∈ st.bins, fl.Pairwise separated
  placedBin : ∀ p ∈ st.placed, p.bin < st.bins.length
  placedBounds : ∀ p ∈ st.placed, boxInBounds S p.box
  placedSep : st.placed.Pairwise (fun p q => p.bin = q.bin → separated p.box q.box)
  placedFree : ∀ p ∈ st.placed, ∀ fl, st.bins[p.bin]? = some fl →
    ∀ f ∈ fl, separated p.box f

theorem separated_symmetric : Symmetric separated := fun _ _ h => separated_symm h

theorem not_mem_erase_self {fl : List Box} {f : Box}
    (hsep : fl.Pairwise separated) (hpos : ∀ g ∈ fl, posBox g) (hf : f ∈ fl) :
    f ∉ fl.erase f := by
  intro hmem
  obtain ⟨l₁, l₂, hnl₁, hleq, herase⟩ := List.exists_erase_eq hf
  rw [herase] at hmem
  rcases List.mem_append.1 hmem with h1 | h2
  · exact hnl₁ h1
  · rw [hleq] at hsep
    have := (List.pairwise_append.1 hsep).2.1
    have hsf : separated f f := (List.pairwise_cons.1 this).1 f h2
    exact not_separated_self (hpos f hf) hsf

/-- One placement step preserves the invariant, keeps the bin count, and
extends the placement list by exactly one placement carrying the rectangle's
id and dimensions. -/
theorem placeRect_inv {S : Nat} {st st' : PackState} {r : Rect}
    (hinv : Inv S st) (h : placeRect st r = some st') :
    Inv S st' ∧ st'.bins.length = st.bins.length ∧
      ∃ b x y, st'.placed = Placement.mk r.rid b (Box.mk x y r.w r.h) :: st.placed := by
  unfold placeRect at h
  cases hp : pickBest (binCandidates st.bins r) with
  | none => rw [hp] at h; cases h
  | some c =>
    obtain ⟨b, f⟩ := c
    rw [hp] at h
    injection h with h
    obtain ⟨fl, hfl, hf, hfit⟩ := binCandidates_mem (pickBest_mem hp)
    obtain ⟨hrw, hrh⟩ := fits_of_fitsB hfit
    have hb : b < st.bins.length := (List.getElem?_eq_some_iff.1 hfl).1
    have hflmem : fl ∈ st.bins := List.getElem?_mem hfl
    have hgetD : st.bins.getD b [] = fl := by
      rw [List.getD_eq_getElem?_getD, hfl]; rfl
    rw [hgetD] at h
    set newP : Placement := Placement.mk r.rid b (Box.mk f.x f.y r.w r.h) with hnewP
    set newfl : List Box := fl.erase f ++ splitFree f r with hnewfl
    have hsub : subBox newP.box f := by
      unfold subBox; simp only [hnewP]; omega
    have hfnotin : f ∉ fl.erase f :=
      not_mem_erase_self (hinv.freeSep fl hflmem) (hinv.freePos fl hflmem) hf
    have herase_mem : ∀ g ∈ fl.erase f, g ∈ fl ∧ g ≠ f := by
      intro g hg
      refine ⟨(List.erase_sublist f fl).subset hg, ?_⟩
      intro hgf; rw [hgf] at hg; exact hfnotin hg
    have hsep_f : ∀ g ∈ fl.erase f, separated f g := by
      intro g hg
      obtain ⟨hgfl, hgf⟩ := herase_mem g hg
      exact ((hinv.freeSep fl hflmem).forall separated_symmetric hf hgfl (Ne.symm hgf))
    have hnewfl_mem : ∀ g ∈ newfl, (g ∈ fl ∧ g ≠ f) ∨ g ∈ splitFree f r := by
      intro g hg
      rcases List.mem_append.1 hg with h1 | h2
      · exact Or.inl (herase_mem g h1)
      · exact Or.inr h2
    have hbins' : st'.bins = st.bins.set b newfl := by rw [← h]
    have hplaced' : st'.placed = newP :: st.placed := by rw [← h]
    have hbinget : ∀ i, i ≠ b → st'.bins[i]? = st.bins[i]? := by
      intro i hi
      rw [hbins']
      exact List.getElem?_set_ne (Ne.symm hi)
    have hbingetb : st'.bins[b]? = some newfl := by
      rw [hbins']; exact List.getElem?_set_self hb
    have hnewfl_sub : ∀ g ∈ newfl, boxInBounds S g ∧ posBox g := by
      intro g hg
      rcases hnewfl_mem g hg with ⟨hgfl, _⟩ | hgs
      · exact ⟨hinv.freeBounds fl hflmem g hgfl, hinv.freePos fl hflmem g hgfl⟩
      · exact ⟨boxInBounds_of_subBox (splitFree_subBox hgs hrw hrh)
          (hinv.freeBounds fl hflmem f hf), splitFree_posBox hgs⟩
    have hbins'_mem : ∀ fl' ∈ st'.bins, fl' = newfl ∨ fl' ∈ st.bins := by
      intro fl' hfl'
      rw [hbins'] at hfl'
      rcases List.mem_or_eq_of_mem_set hfl' with h1 | h2
      · exact Or.inr h1
      · exact Or.inl h2
    refine ⟨⟨?_, ?_, ?_, ?_, ?_, ?_, ?_⟩, ?_, ?_⟩
    · -- freeBounds
      intro fl' hfl' g hg
      rcases hbins'_mem fl' hfl' with rfl | hold
      · exact (hnewfl_sub g hg).1
      · exact hinv.freeBounds fl' hold g hg
    · -- freePos
      intro fl' hfl' g hg
      rcases hbins'_mem fl' hfl' with rfl | hold
      · exact (hnewfl_sub g hg).2
      · exact hinv.freePos fl' hold g hg
    · -- freeSep
      intro fl' hfl'
      rcases hbins'_mem fl' hfl' with rfl | hold
      · refine List.pairwise_append.2 ⟨?_, splitFree_pairwise f r, ?_⟩
        · exact (hinv.freeSep fl hflmem).sublist (List.erase_sublist f fl)
        · intro g hg s hs
          have hgf := hsep_f g hg
          exact separated_symm (separated_of_subBox (splitFree_subBox hs hrw hrh) hgf)
      · exact hinv.freeSep fl' hold
    · -- placedBin
      intro p hp'
      rw [hplaced'] at hp'
      rw [hbins', List.length_set]
      rcases List.mem_cons.1 hp' with rfl | hold
      · exact hb
      · exact hinv.placedBin p hold
    · -- placedBounds
      intro p hp'
      rw [hplaced'] at hp'
      rcases List.mem_cons.1 hp' with rfl | hold
      · exact boxInBounds_of_subBox hsub (hinv.freeBounds fl hflmem f hf)
      · exact hinv.placedBounds p hold
    · -- placedSep
      rw [hplaced']
      refine List.pairwise_cons.2 ⟨?_, hinv.placedSep⟩
      intro q hq hbq
      have hqb : q.bin = b := hbq.symm
      have hqf : separated q.box f := by
        have := hinv.placedFree q hq fl
        rw [hqb] at this
        exact this hfl f hf
      exact separated_of_subBox hsub (separated_symm hqf)
    · -- placedFree
      intro p hp' fl' hfl' g hg
      rw [hplaced'] at hp'
      rcases List.mem_cons.1 hp' with rfl | hold
      · -- the new placement, its bin is b
        rw [hbingetb] at hfl'
        injection hfl' with hfl'
        subst hfl'
        rcases hnewfl_mem g hg with ⟨hgfl, hgne⟩ | hgs
        · have : separated f g :=
            (hinv.freeSep fl hflmem).forall separated_symmetric hf hgfl (Ne.symm hgne)
          exact separated_of_subBox hsub this
        · exact splitFree_separated_placed hgs
      · by_cases hpb : p.bin = b
        · rw [hpb, hbingetb] at hfl'
          injection hfl' with hfl'
          subst hfl'
          rcases hnewfl_mem g hg with ⟨hgfl, _⟩ | hgs
          · exact hinv.placedFree p hold fl (hpb ▸ hfl) g hgfl
          · have hpf : separated p.box f := hinv.placedFree p hold fl (hpb ▸ hfl) f hf
            exact separated_symm
              (separated_of_subBox (splitFree_subBox hgs hrw hrh) (separated_symm hpf))
        · rw [hbinget p.bin hpb] at hfl'
          exact hinv.placedFree p hold fl' hfl' g hg
    · rw [hbins', List.length_set]
    · exact ⟨b, f.x, f.y, hplaced'⟩

/-- The id and dimensions recorded in a placement. -/
def Placement.tri (p : Placement) : Nat × Nat × Nat := (p.rid, p.box.w, p.box.h)

/-- The id and dimensions of an input rectangle. -/
def Rect.tri (r : Rect) : Nat × Nat × Nat := (r.rid, r.w, r.h)

/-- Folding the placement step over a rectangle list preserves the invariant
and produces exactly one placement per rectangle, carrying its id and
dimensions. -/
theorem packFold_inv {S : Nat} : ∀ {l : List Rect} {st st' : PackState},
    Inv S st → l.foldlM placeRect st = some st' →
    Inv S st' ∧ st'.bins.length = st.bins.length ∧
      st'.placed.map Placement.tri = (l.map Rect.tri).reverse ++ st.placed.map Placement.tri
  | [], st, st', hinv, h => by
    simp only [List.foldlM_nil] at h
    cases h
    exact ⟨hinv, rfl, by simp⟩
  | r :: l, st, st', hinv, h => by
    rw [List.foldlM_cons] at h
    cases hps : placeRect st r with
    | none => rw [hps] at h; cases h
    | some st1 =>
      rw [hps] at h
      simp only [Option.bind_eq_bind, Option.some_bind] at h
      obtain ⟨hinv1, hlen1, b, x, y, hplaced1⟩ := placeRect_inv hinv hps
      obtain ⟨hinv', hlen', hmap'⟩ := packFold_inv hinv1 h
      refine ⟨hinv', by rw [hlen', hlen1], ?_⟩
      rw [hmap', hplaced1]
      simp [Rect.tri, Placement.tri]

/-- The fresh bin set of an attempt satisfies the invariant. -/
theorem initBins_inv {k S : Nat} (hS : 0 < S) :
    Inv S (PackState.mk (initBins k S) []) := by
  constructor
  · intro fl hfl f hf
    rw [List.eq_of_mem_replicate hfl] at hf
    rw [List.mem_singleton.1 hf]
    exact ⟨by simp, by simp⟩
  · intro fl hfl f hf
    rw [List.eq_of_mem_replicate hfl] at hf
    rw [List.mem_singleton.1 hf]
    exact ⟨hS, hS⟩
  · intro fl hfl
    rw [List.eq_of_mem_replicate hfl]
    exact List.pairwise_singleton _ _
  · intro p hp; cases hp
  · intro p hp; cases hp
  · exact List.Pairwise.nil
  · intro p hp; cases hp

/-- A successful packing attempt with `k` bins of side `S` yields placements
whose ids and dimensions are a permutation of the input's, all assigned to
bins `0 .. k-1` and lying inside the bin square, pairwise separated whenever
they share a bin. -/
theorem packAttempt_facts {rects : List Rect} {k S : Nat} {ps : List Placement}
    (hS : 0 < S) (h : packAttempt rects k S = some ps) :
    (ps.map Placement.tri).Perm (rects.map Rect.tri) ∧
    (∀ p ∈ ps, p.bin < k ∧ boxInBounds S p.box) ∧
    ps.Pairwise (fun p q => p.bin = q.bin → separated p.box q.box) := by
  unfold packAttempt at h
  cases hf : (sortRects rects).foldlM placeRect (PackState.mk (initBins k S) []) with
  | none => rw [hf] at h; cases h
  | some st' =>
    rw [hf] at h
    simp only [Option.map_some'] at h
    obtain ⟨hinv, hlen, hmap⟩ := packFold_inv (initBins_inv hS) hf
    have hk : st'.bins.length = k := by
      rw [hlen]; simp [initBins]
    injection h with h
    subst h
    refine ⟨?_, ?_, hinv.placedSep⟩
    · rw [hmap]
      simp only [List.map_nil, List.append_nil]
      exact List.Perm.trans (List.reverse_perm _)
        ((List.perm_insertionSort rectBefore rects).map _)
    · intro p hp
      exact ⟨hk ▸ hinv.placedBin p hp, hinv.placedBounds p hp⟩

/-- An attempt can never succeed when some input rectangle exceeds the bin
side in either dimension. -/
theorem packAttempt_none_of_oversized {rects : List Rect} {r : Rect} {k S : Nat}
    (hS : 0 < S) (hr : r ∈ rects) (hbig : S < r.w ∨ S < r.h) :
    packAttempt rects k S = none := by
  cases h : packAttempt rects k S with
  | none => rfl
  | some ps =>
    exfalso
    obtain ⟨hperm, hbounds, _⟩ := packAttempt_facts hS h
    have h1 : r.tri ∈ rects.map Rect.tri := List.mem_map_of_mem _ hr
    have h2 : r.tri ∈ ps.map Placement.tri := hperm.mem_iff.2 h1
    obtain ⟨p, hp, htri⟩ := List.mem_map.1 h2
    have hb := (hbounds p hp).2
    unfold boxInBounds at hb
    unfold Placement.tri Rect.tri at htri
    simp only [Prod.mk.injEq] at htri
    omega

theorem packLoopAux_success {α : Type _} {attempt : Nat → Option α} :
    ∀ (fuel k : Nat), fuel + k = 33 → ∀ {m : Nat} {r : α},
      (packLoopAux attempt fuel k).2 = some (m, r) →
      attempt m = some r ∧ k ≤ m ∧ m ≤ 32 ∧ ∀ j, k ≤ j → j < m → attempt j = none := by
  intro fuel
  induction fuel with
  | zero =>
    intro k hk m r h
    simp [packLoopAux] at h
  | succ fuel ih =>
    intro k hk m r h
    unfold packLoopAux at h
    cases hak : attempt k with
    | some r' =>
      rw [hak] at h
      simp only at h
      obtain ⟨rfl, rfl⟩ : k = m ∧ r' = r := by
        injection h with h
        injection h with h1 h2
        exact ⟨h1, h2⟩
      exact ⟨hak, le_refl _, by omega, fun j h1 h2 => by omega⟩
    | none =>
      rw [hak] at h
      by_cases hceil : k + 1 > 32
      · rw [if_pos hceil] at h
        simp at h
      · rw [if_neg hceil] at h
        simp only at h
        obtain ⟨ha, hkm, hm32, hnone⟩ := ih (k + 1) (by omega) h
        refine ⟨ha, by omega, hm32, ?_⟩
        intro j h1 h2
        rcases Nat.eq_or_lt_of_le h1 with rfl | hlt
        · exact hak
        · exact hnone j (by omega) h2

/-- Success characterization of the retry loop started at one bin: the
returned bin count is at most 32, its attempt succeeded with the returned
placements, and every attempt with fewer bins failed. -/
theorem packTrace_success {α : Type _} {attempt : Nat → Option α} {m : Nat} {r : α}
    (h : (packTrace attempt 1).2 = some (m, r)) :
    attempt m = some r ∧ 1 ≤ m ∧ m ≤ 32 ∧ ∀ j, 1 ≤ j → j < m → attempt j = none :=
  packLoopAux_success 32 1 rfl h

theorem packLoopAux_allFail {α : Type _} {attempt : Nat → Option α} :
    ∀ (fuel k : Nat), fuel + k = 33 →
      (∀ j, k ≤ j → j ≤ 32 → attempt j = none) →
      packLoopAux attempt fuel k = (List.range' k fuel, none) := by
  intro fuel
  induction fuel with
  | zero => intro k hk hfail; rfl
  | succ fuel ih =>
    intro k hk hfail
    unfold packLoopAux
    rw [hfail k (le_refl _) (by omega)]
    simp only
    by_cases hceil : k + 1 > 32
    · rw [if_pos hceil]
      have hk' : k = 32 := by omega
      subst hk'
      have hf : fuel = 0 := by omega
      subst hf
      rfl
    · rw [if_neg hceil]
      have hrec := ih (k + 1) (by omega) (fun j h1 h2 => hfail j (by omega) h2)
      rw [hrec]
      rfl

/-- When every attempt with 1 to 32 bins fails, the retry loop attempts
exactly the bin counts 1 through 32 and then gives up. -/
theorem packTrace_allFail {α : Type _} {attempt : Nat → Option α}
    (hfail : ∀ j, 1 ≤ j → j ≤ 32 → attempt j = none) :
    packTrace attempt 1 = (List.range' 1 32, none) :=
  packLoopAux_allFail 32 1 rfl hfail

theorem placementSep_symmetric :
    Symmetric (fun p q : Placement => p.bin = q.bin → separated p.box q.box) :=
  fun _ _ hab hba => separated_symm (hab hba.symm)

/-- Spec scenario inputs: 100×100, 50×50, 50×50 at sheet size 128. -/
def demoRects : List Rect := [Rect.mk 0 100 100, Rect.mk 1 50 50, Rect.mk 2 50 50]

/-- The placements the modelled engine produces for `demoRects` at size 128. -/
def demoPlacements : List Placement :=
  [Placement.mk 2 1 (Box.mk 50 0 50 50),
   Placement.mk 1 1 (Box.mk 0 0 50 50),
   Placement.mk 0 0 (Box.mk 0 0 100 100)]

/-- C1: non-overlap invariant.  For every successful packing, any two
distinct placements assigned the same bin have rectangles with no common
point. -/
theorem nonoverlap_of_runPack {rects : List Rect} {S k : Nat} {ps : List Placement}
    (hS : 0 < S) (h : runPack rects S = some (k, ps)) :
    ∀ p ∈ ps, ∀ q ∈ ps, p ≠ q → p.bin = q.bin →
      ∀ px py, ¬ (inBox p.box px py ∧ inBox q.box px py) := by
  obtain ⟨ha, -, -, -⟩ := packTrace_success h
  obtain ⟨-, -, hsep⟩ := packAttempt_facts hS ha
  intro p hp q hq hne hbin px py
  exact not_inBox_of_separated (hsep.forall placementSep_symmetric hp hq hne hbin) px py

theorem nonoverlap_of_runPack_witness :
    (0 : Nat) < 128 ∧ runPack demoRects 128 = some (2, demoPlacements) ∧
    (∀ p ∈ demoPlacements, ∀ q ∈ demoPlacements, p ≠ q → p.bin = q.bin →
      ∀ px py, ¬ (inBox p.box px py ∧ inBox q.box px py)) :=
  ⟨by decide, by decide,
    @nonoverlap_of_runPack demoRects 128 2 demoPlacements (by decide) (by decide)⟩

/-- C3: completeness.  For every successful packing over distinct input ids,
every input rectangle id occurs in exactly one placement. -/
theorem completeness_of_runPack {rects : List Rect} {S k : Nat} {ps : List Placement}
    (hS : 0 < S) (hnodup : (rects.map Rect.rid).Nodup)
    (h : runPack rects S = some (k, ps)) :
    ∀ i ∈ rects.map Rect.rid, (ps.map Placement.rid).count i = 1 := by
  obtain ⟨ha, -, -, -⟩ := packTrace_success h
  obtain ⟨hperm, -, -⟩ := packAttempt_facts hS ha
  have hids : (ps.map Placement.rid).Perm (rects.map Rect.rid) := by
    have hmapped := hperm.map Prod.fst
    simpa [List.map_map, Function.comp_def, Placement.tri, Rect.tri] using hmapped
  intro i hi
  rw [hids.count_eq]
  exact List.count_eq_one_of_mem hnodup hi

theorem completeness_of_runPack_witness :
    (0 : Nat) < 128 ∧ (demoRects.map Rect.rid).Nodup ∧
    runPack demoRects 128 = some (2, demoPlacements) ∧
    (∀ i ∈ demoRects.map Rect.rid, (demoPlacements.map Placement.rid).count i = 1) :=
  ⟨by decide, by decide, by decide,
    @completeness_of_runPack demoRects 128 2 demoPlacements
      (by decide) (by decide) (by decide)⟩

/-- C5: retry discipline and capacity ceiling.  On input whose attempts all
fail, the loop attempts exactly the bin counts 1 through 32 (in that order,
each attempt over freshly created empty bins, `k` of them at attempt `k`) and
then fails with the capacity panic; no 33-bin attempt happens. -/
theorem retry_discipline {rects : List Rect} {S : Nat}
    (hfail : ∀ j < 33, packAttempt rects j S = none) :
    packTrace (fun k => packAttempt rects k S) 1 = (List.range' 1 32, none) ∧
    runPack rects S = none ∧
    ∀ k, (initBins k S).length = k ∧ ∀ fl ∈ initBins k S, fl = [Box.mk 0 0 S S] := by
  have h := packTrace_allFail (fun j _ _ => hfail j (by omega))
  refine ⟨h, ?_, ?_⟩
  · unfold runPack
    rw [h]
  · intro k
    exact ⟨by simp [initBins], fun fl hfl => List.eq_of_mem_replicate hfl⟩

theorem retry_discipline_witness :
    (∀ j < 33, packAttempt [Rect.mk 0 3 3] j 2 = none) ∧
    (packTrace (fun k => packAttempt [Rect.mk 0 3 3] k 2) 1 = (List.range' 1 32, none) ∧
     runPack [Rect.mk 0 3 3] 2 = none ∧
     ∀ k, (initBins k 2).length = k ∧ ∀ fl ∈ initBins k 2, fl = [Box.mk 0 0 2 2]) :=
  ⟨by decide, retry_discipline (by decide)⟩

/-- C4 (amended): there is no oversized-rectangle pre-check.  An input
containing a rectangle wider or taller than the bin side enters the retry
loop, every attempt fails, the loop attempts all 32 bin counts, and the run
fails with the capacity panic (there is no `RectangleTooLarge` error in the
program). -/
theorem oversized_retry_exhausts {rects : List Rect} {r : Rect} {S : Nat}
    (hS : 0 < S) (hr : r ∈ rects) (hbig : S < r.w ∨ S < r.h) :
    packTrace (fun k => packAttempt rects k S) 1 = (List.range' 1 32, none) ∧
    runPack rects S = none := by
  have hfail : ∀ j, 1 ≤ j → j ≤ 32 → packAttempt rects j S = none :=
    fun j _ _ => packAttempt_none_of_oversized hS hr hbig
  have h := packTrace_allFail hfail
  refine ⟨h, ?_⟩
  unfold runPack
  rw [h]

theorem oversized_retry_exhausts_witness :
    (0 : Nat) < 2048 ∧ Rect.mk 0 3000 3000 ∈ [Rect.mk 0 3000 3000] ∧
    (2048 < 3000 ∨ 2048 < 3000) ∧
    (packTrace (fun k => packAttempt [Rect.mk 0 3000 3000] k 2048) 1 =
        (List.range' 1 32, none) ∧
      runPack [Rect.mk 0 3000 3000] 2048 = none) :=
  ⟨by decide, by decide, by decide,
    @oversized_retry_exhausts [Rect.mk 0 3000 3000] (Rect.mk 0 3000 3000) 2048
      (by decide) (by decide) (by decide)⟩

/-- C4 counterexample: for the spec's own example (a 3000×3000 rectangle at
bin size 2048) the retry loop IS entered and performs all 32 attempts before
failing, contradicting "fails immediately … before the retry loop is entered;
no retry attempt is made". -/
theorem oversized_check_cex :
    (packTrace (fun k => packAttempt [Rect.mk 0 3000 3000] k 2048) 1).1 =
        List.range' 1 32 ∧
    (packTrace (fun k => packAttempt [Rect.mk 0 3000 3000] k 2048) 1).1.length = 32 ∧
    (packTrace (fun k => packAttempt [Rect.mk 0 3000 3000] k 2048) 1).2 = none := by
  exact ⟨by decide, by decide, by decide⟩

/-- C8: determinism.  The packing phase is a pure function of the input
rectangle list (ids, dimensions, order) and the sheet size: equal inputs give
bit-identical placements. -/
theorem packing_deterministic (rects₁ rects₂ : List Rect) (S₁ S₂ : Nat)
    (h₁ : rects₁ = rects₂) (h₂ : S₁ = S₂) :
    runPack rects₁ S₁ = runPack rects₂ S₂ := by
  rw [h₁, h₂]

theorem packing_deterministic_witness :
    demoRects = demoRects ∧ (128 : Nat) = 128 ∧
    runPack demoRects 128 = runPack demoRects 128 :=
  ⟨rfl, rfl, packing_deterministic demoRects demoRects 128 128 rfl rfl⟩

/-- Follows the spec's words (§3 invariants, §8): `ps` is a valid packing of
`rects` into `k` bins of side `S` when its ids and dimensions are exactly the
input's, every placement is in a bin `< k` and inside the bin square, and
placements sharing a bin are separated. -/
def validPacking (rects : List Rect) (S k : Nat) (ps : List Placement) : Prop :=
  (ps.map Placement.tri).Perm (rects.map Rect.tri) ∧
  (∀ p ∈ ps, p.bin < k ∧ boxInBounds S p.box) ∧
  List.Pairwise (fun p q => p.bin = q.bin → separated p.box q.box) ps

instance (rects : List Rect) (S k : Nat) (ps : List Placement) :
    Decidable (validPacking rects S k ps) := by
  unfold validPacking; infer_instance

/-- Formalization of C6 as stated: a successful packing uses the smallest
bin count, at least 1, for which any valid packing exists. -/
def binsOptimalClaim (rects : List Rect) (S : Nat) : Prop :=
  ∀ k ps, runPack rects S = some (k, ps) →
    (∃ qs, validPacking rects S k qs) ∧
    ∀ j, 1 ≤ j → j < k → ¬ ∃ qs, validPacking rects S j qs

/-- The pinwheel input: a 2×2 square and two 3×1 and two 1×3 strips, which
tile a 4×4 bin exactly, but only in a non-guillotine pinwheel layout. -/
def pinwheelRects : List Rect :=
  [Rect.mk 0 2 2, Rect.mk 1 3 1, Rect.mk 2 3 1, Rect.mk 3 1 3, Rect.mk 4 1 3]

/-- The valid single-bin pinwheel layout of `pinwheelRects` in a 4×4 bin. -/
def pinwheelOne : List Placement :=
  [Placement.mk 1 0 (Box.mk 0 0 3 1),
   Placement.mk 3 0 (Box.mk 3 0 1 3),
   Placement.mk 2 0 (Box.mk 1 3 3 1),
   Placement.mk 4 0 (Box.mk 0 1 1 3),
   Placement.mk 0 0 (Box.mk 1 1 2 2)]

/-- What the modelled engine actually produces on the pinwheel input: it
needs two bins. -/
def pinwheelModel : List Placement :=
  [Placement.mk 4 1 (Box.mk 1 0 1 3),
   Placement.mk 3 1 (Box.mk 0 0 1 3),
   Placement.mk 2 0 (Box.mk 0 3 3 1),
   Placement.mk 1 0 (Box.mk 0 2 3 1),
   Placement.mk 0 0 (Box.mk 0 0 2 2)]

/-- C6 counterexample: on the pinwheel input at sheet size 4 a valid one-bin
packing exists, yet the program packs with two bins, so the bin count used is
not the smallest for which a valid packing exists. -/
theorem monotonic_retry_cex : ¬ binsOptimalClaim pinwheelRects 4 := by
  intro hcl
  obtain ⟨-, hmin⟩ := hcl 2 pinwheelModel (by decide)
  exact hmin 1 (by decide) (by decide) ⟨pinwheelOne, by decide⟩

/-- C6 (amended): the bin count of a successful packing is the smallest
count ≥ 1 at which the engine's packing attempt succeeds, within the 32-bin
ceiling (not the smallest count at which any valid packing exists: the
heuristic engine can fail where a valid packing exists). -/
theorem bins_least_heuristic_success {rects : List Rect} {S k : Nat}
    {ps : List Placement} (h : runPack rects S = some (k, ps)) :
    packAttempt rects k S = some ps ∧ 1 ≤ k ∧ k ≤ 32 ∧
      ∀ j, 1 ≤ j → j < k → packAttempt rects j S = none :=
  packTrace_success h

theorem bins_least_heuristic_success_witness :
    runPack demoRects 128 = some (2, demoPlacements) ∧
    (packAttempt demoRects 2 128 = some demoPlacements ∧ 1 ≤ 2 ∧ 2 ≤ 32 ∧
      ∀ j, 1 ≤ j → j < 2 → packAttempt demoRects j 128 = none) :=
  ⟨by decide, bins_least_heuristic_success (by decide)⟩

/-- A luminance+alpha pixel (`LumaA<u8>`), modelled as a pair of naturals. -/
abbrev Pix := Nat × Nat

/-- A bin's pixel buffer, indexed by (x, y). -/
abbrev Buf := Nat → Nat → Pix

/-- A decoded source image as held in `src_img_bytes`: dimensions and pixel
contents. -/
structure Image where
  w : Nat
  h : Nat
  pix : Nat → Nat → Pix

/-- `ImageBuffer::new`: a zero-initialized (transparent black) buffer. -/
def zeroBuf : Buf := fun _ _ => (0, 0)

/-- One unchecked pixel write. -/
def writePix (buf : Buf) (x y : Nat) (v : Pix) : Buf :=
  fun a b => if a = x ∧ b = y then v else buf a b

/-- `put_pixel` of the image crate: writes the pixel, or fails (the panic
branch) when the target lies outside the `S`×`S` buffer. -/
def putPixel (S : Nat) (buf : Buf) (x y : Nat) (v : Pix) : Option Buf :=
  if x < S ∧ y < S then some (writePix buf x y v) else none

/-- The nested pixel-copy loops of `src/main.rs` lines 130-134 (row by row,
pixel by pixel, copying `src.get_pixel(i, j)` to `(i + x, j + y)`), with the
`put_pixel` bounds check. -/
def blitChecked (S : Nat) (img : Image) (x y : Nat) (buf : Buf) : Option Buf :=
  (List.range img.h).foldlM (fun bj j =>
    (List.range img.w).foldlM
      (fun bi i => putPixel S bi (i + x) (j + y) (img.pix i j)) bj) buf

/-- The same nested loops with the bounds check elided. -/
def blit (img : Image) (x y : Nat) (buf : Buf) : Buf :=
  (List.range img.h).foldl (fun bj j =>
    (List.range img.w).foldl
      (fun bi i => writePix bi (i + x) (j + y) (img.pix i j)) bj) buf

/-- The compositing loop of `src/main.rs` lines 124-137: every placement
blits its source image (looked up by rectangle id) into the buffer of its
bin, leaving all other bins untouched. -/
def composite (imgs : Nat → Image) (ps : List Placement) (out : Nat → Buf) :
    Nat → Buf :=
  ps.foldl (fun o p =>
    fun β => if β = p.bin then blit (imgs p.rid) p.box.x p.box.y (o p.bin) else o β) out

/-- The compositing loop with the `put_pixel` bounds checks kept: `none`
models reaching the panic branch of a pixel write. -/
def compositeChecked (S : Nat) (imgs : Nat → Image) (ps : List Placement)
    (out : Nat → Buf) : Option (Nat → Buf) :=
  ps.foldlM (fun o p =>
    (blitChecked S (imgs p.rid) p.box.x p.box.y (o p.bin)).map
      (fun nb => fun β => if β = p.bin then nb else o β)) out

/-- The initial output state: one zero-initialized buffer per bin. -/
def initOut : Nat → Buf := fun _ => zeroBuf

/-- The rectangles `main` registers (lines 64-72): one per decoded image,
with exactly the image's dimensions. -/
def rectsOf (ids : List Nat) (imgs : Nat → Image) : List Rect :=
  ids.map (fun i => Rect.mk i (imgs i).w (imgs i).h)

theorem foldlM_eq_foldl {α β : Type _} (f : β → α → Option β) (g : β → α → β) :
    ∀ (l : List α) (b : β), (∀ b' a, a ∈ l → f b' a = some (g b' a)) →
      l.foldlM f b = some (l.foldl g b)
  | [], _, _ => rfl
  | a :: l, b, h => by
    rw [List.foldlM_cons, h b a (List.mem_cons_self _ _)]
    simp only [Option.bind_eq_bind, Option.some_bind, List.foldl_cons]
    exact foldlM_eq_foldl f g l (g b a) (fun b' a' ha' => h b' a' (List.mem_cons_of_mem _ ha'))

/-- When the blit region lies inside the buffer, no `put_pixel` check fires
and the checked loops compute the unchecked blit. -/
theorem blitChecked_eq {S : Nat} {img : Image} {x y : Nat} (buf : Buf)
    (hx : x + img.w ≤ S) (hy : y + img.h ≤ S) :
    blitChecked S img x y buf = some (blit img x y buf) := by
  unfold blitChecked blit
  apply foldlM_eq_foldl
  intro bj j hj
  apply foldlM_eq_foldl
  intro bi i hi
  unfold putPixel
  rw [if_pos]
  have hjr := List.mem_range.1 hj
  have hir := List.mem_range.1 hi
  exact ⟨by omega, by omega⟩

theorem writePix_apply (buf : Buf) (x y : Nat) (v : Pix) (a b : Nat) :
    writePix buf x y v a b = if a = x ∧ b = y then v else buf a b := rfl

theorem rowBlit_pix (pf : Nat → Nat → Pix) (x y j : Nat) :
    ∀ (n : Nat) (buf : Buf) (a b : Nat),
      ((List.range n).foldl (fun bi i => writePix bi (i + x) (j + y) (pf i j)) buf) a b =
        if b = j + y ∧ x ≤ a ∧ a < x + n then pf (a - x) j else buf a b := by
  intro n
  induction n with
  | zero =>
    intro buf a b
    rw [List.range_zero, List.foldl_nil, if_neg (by omega)]
  | succ n ih =>
    intro buf a b
    rw [List.range_succ, List.foldl_append, List.foldl_cons, List.foldl_nil,
      writePix_apply]
    by_cases hab : a = n + x ∧ b = j + y
    · rw [if_pos hab, if_pos ⟨hab.2, by omega, by omega⟩]
      have hax : a - x = n := by omega
      rw [hax]
    · rw [if_neg hab, ih buf a b]
      by_cases hc : b = j + y ∧ x ≤ a ∧ a < x + n
      · rw [if_pos hc, if_pos ⟨hc.1, hc.2.1, by omega⟩]
      · rw [if_neg hc, if_neg (by omega)]

theorem colBlit_pix (img : Image) (x y : Nat) :
    ∀ (n : Nat) (buf : Buf) (a b : Nat),
      ((List.range n).foldl (fun bj j => (List.range img.w).foldl
          (fun bi i => writePix bi (i + x) (j + y) (img.pix i j)) bj) buf) a b =
        if x ≤ a ∧ a < x + img.w ∧ y ≤ b ∧ b < y + n
        then img.pix (a - x) (b - y) else buf a b := by
  intro n
  induction n with
  | zero =>
    intro buf a b
    rw [List.range_zero, List.foldl_nil, if_neg (by omega)]
  | succ n ih =>
    intro buf a b
    rw [List.range_succ, List.foldl_append, List.foldl_cons, List.foldl_nil]
    rw [rowBlit_pix, ih buf a b]
    by_cases hrow : b = n + y ∧ x ≤ a ∧ a < x + img.w
    · rw [if_pos hrow, if_pos ⟨hrow.2.1, hrow.2.2, by omega, by omega⟩]
      have hby : b - y = n := by omega
      rw [hby]
    · by_cases hc : x ≤ a ∧ a < x + img.w ∧ y ≤ b ∧ b < y + n
      · rw [if_neg hrow, if_pos hc, if_pos ⟨hc.1, hc.2.1, hc.2.2.1, by omega⟩]
      · rw [if_neg hrow, if_neg hc, if_neg (by omega)]

/-- Pointwise characterization of one blit: pixels inside the copied region
take the source image's pixels, all others are untouched. -/
theorem blit_pix (img : Image) (x y : Nat) (buf : Buf) (a b : Nat) :
    blit img x y buf a b =
      if x ≤ a ∧ a < x + img.w ∧ y ≤ b ∧ b < y + img.h
      then img.pix (a - x) (b - y) else buf a b :=
  colBlit_pix img x y img.h buf a b

theorem composite_nil (imgs : Nat → Image) (out : Nat → Buf) :
    composite imgs [] out = out := rfl

theorem composite_cons (imgs : Nat → Image) (p : Placement) (ps : List Placement)
    (out : Nat → Buf) :
    composite imgs (p :: ps) out =
      composite imgs ps
        (fun β => if β = p.bin then blit (imgs p.rid) p.box.x p.box.y (out p.bin)
         else out β) := rfl

/-- A pixel covered by no placement of bin `β` is untouched by the
compositing loop (the covered region of a placement is determined by its
source image's dimensions, exactly as the copy loops iterate). -/
theorem composite_untouched {imgs : Nat → Image} :
    ∀ {ps : List Placement} (out : Nat → Buf) {β a b : Nat},
      (∀ p ∈ ps, p.bin = β →
        ¬ inBox (Box.mk p.box.x p.box.y (imgs p.rid).w (imgs p.rid).h) a b) →
      composite imgs ps out β a b = out β a b
  | [], _, _, _, _, _ => rfl
  | p :: ps', out, β, a, b, hnc => by
    rw [composite_cons]
    have hrec := @composite_untouched imgs ps'
      (fun β' => if β' = p.bin then blit (imgs p.rid) p.box.x p.box.y (out p.bin) else out β')
      β a b (fun q hq => hnc q (List.mem_cons_of_mem _ hq))
    rw [hrec]
    show (if β = p.bin then blit (imgs p.rid) p.box.x p.box.y (out p.bin) else out β) a b
        = out β a b
    by_cases hβ : β = p.bin
    · have hthis := hnc p (List.mem_cons_self _ _) hβ.symm
      unfold inBox at hthis
      rw [if_pos hβ, blit_pix, if_neg (by simpa using hthis), hβ]
    · rw [if_neg hβ]

/-- A pixel covered by a placement equals the corresponding source pixel,
provided placements sharing a bin are separated and every placement's image
has the placement's dimensions. -/
theorem composite_covered {imgs : Nat → Image} :
    ∀ {ps : List Placement} (out : Nat → Buf),
      ps.Pairwise (fun p q => p.bin = q.bin → separated p.box q.box) →
      (∀ p ∈ ps, (imgs p.rid).w = p.box.w ∧ (imgs p.rid).h = p.box.h) →
      ∀ p ∈ ps, ∀ a b, inBox p.box a b →
        composite imgs ps out p.bin a b = (imgs p.rid).pix (a - p.box.x) (b - p.box.y)
  | [], _, _, _, p, hp, _, _, _ => absurd hp (List.not_mem_nil p)
  | q :: ps', out, hsep, hdims, p, hp, a, b, hin => by
    rw [composite_cons]
    rcases List.mem_cons.1 hp with rfl | hp'
    · -- the head placement: later placements of the same bin cannot cover
      have hnc : ∀ s ∈ ps', s.bin = p.bin →
          ¬ inBox (Box.mk s.box.x s.box.y (imgs s.rid).w (imgs s.rid).h) a b := by
        intro s hs hsb
        have hps : separated p.box s.box :=
          (List.pairwise_cons.1 hsep).1 s hs hsb.symm
        obtain ⟨hsw, hsh⟩ := hdims s (List.mem_cons_of_mem _ hs)
        have hbox : Box.mk s.box.x s.box.y (imgs s.rid).w (imgs s.rid).h = s.box := by
          rw [hsw, hsh]
        rw [hbox]
        intro hins
        exact not_inBox_of_separated hps a b ⟨hin, hins⟩
      have hrec := @composite_untouched imgs ps'
        (fun β' => if β' = p.bin then blit (imgs p.rid) p.box.x p.box.y (out p.bin) else out β')
        p.bin a b hnc
      rw [hrec]
      show (if p.bin = p.bin then blit (imgs p.rid) p.box.x p.box.y (out p.bin)
          else out p.bin) a b = (imgs p.rid).pix (a - p.box.x) (b - p.box.y)
      obtain ⟨hw, hh⟩ := hdims p (List.mem_cons_self _ _)
      unfold inBox at hin
      rw [if_pos rfl, blit_pix,
        if_pos (by rw [hw, hh]; exact ⟨hin.1, hin.2.1, hin.2.2.1, hin.2.2.2⟩)]
    · exact @composite_covered imgs ps'
        (fun β' => if β' = q.bin then blit (imgs q.rid) q.box.x q.box.y (out q.bin) else out β')
        (List.pairwise_cons.1 hsep).2
        (fun s hs => hdims s (List.mem_cons_of_mem _ hs))
        p hp' a b hin

/-- Every placement of a successful run over registered images has its
source image's dimensions. -/
theorem runPack_dims {ids : List Nat} {imgs : Nat → Image} {S k : Nat}
    {ps : List Placement} (hS : 0 < S)
    (h : runPack (rectsOf ids imgs) S = some (k, ps)) :
    ∀ p ∈ ps, (imgs p.rid).w = p.box.w ∧ (imgs p.rid).h = p.box.h := by
  obtain ⟨ha, -, -, -⟩ := packTrace_success h
  obtain ⟨hperm, -, -⟩ := packAttempt_facts hS ha
  intro p hp
  have h1 : p.tri ∈ (rectsOf ids imgs).map Rect.tri :=
    hperm.mem_iff.1 (List.mem_map_of_mem _ hp)
  unfold rectsOf at h1
  rw [List.map_map] at h1
  obtain ⟨i, _, heq⟩ := List.mem_map.1 h1
  simp only [Function.comp_apply, Rect.tri, Placement.tri, Prod.mk.injEq] at heq
  obtain ⟨hrid, hwid, hhei⟩ := heq
  rw [← hrid]
  exact ⟨hwid, hhei⟩

/-- C2: bounds invariant and compositor write safety.  Every placement of a
successful run fits inside the bin square, and consequently the compositing
loop never reaches the out-of-bounds panic branch of `put_pixel`: the checked
compositor succeeds and computes the unchecked one. -/
theorem bounds_and_compositor_safety {ids : List Nat} {imgs : Nat → Image}
    {S k : Nat} {ps : List Placement} (hS : 0 < S)
    (h : runPack (rectsOf ids imgs) S = some (k, ps)) :
    (∀ p ∈ ps, p.box.x + p.box.w ≤ S ∧ p.box.y + p.box.h ≤ S) ∧
    compositeChecked S imgs ps initOut = some (composite imgs ps initOut) := by
  obtain ⟨ha, -, -, -⟩ := packTrace_success h
  obtain ⟨-, hbb, -⟩ := packAttempt_facts hS ha
  have hdims := runPack_dims hS h
  have hbounds : ∀ p ∈ ps, p.box.x + p.box.w ≤ S ∧ p.box.y + p.box.h ≤ S := by
    intro p hp
    have := (hbb p hp).2
    unfold boxInBounds at this
    exact this
  refine ⟨hbounds, ?_⟩
  unfold compositeChecked composite
  apply foldlM_eq_foldl
  intro o p hp
  obtain ⟨hw, hh⟩ := hdims p hp
  obtain ⟨hbx, hby⟩ := hbounds p hp
  rw [blitChecked_eq (o p.bin) (by omega) (by omega)]
  rfl

/-- C7: pixel fidelity over zero-initialized buffers.  In the composited
output of a successful run, every pixel covered by a placement equals the
source image's pixel, copied verbatim, and every pixel of every bin covered
by no placement retains the zero (transparent black) initial value. -/
theorem pixel_fidelity {ids : List Nat} {imgs : Nat → Image} {S k : Nat}
    {ps : List Placement} (hS : 0 < S)
    (h : runPack (rectsOf ids imgs) S = some (k, ps)) :
    (∀ p ∈ ps, ∀ i j, i < p.box.w → j < p.box.h →
      composite imgs ps initOut p.bin (p.box.x + i) (p.box.y + j) =
        (imgs p.rid).pix i j) ∧
    (∀ β a b, (∀ p ∈ ps, p.bin = β → ¬ inBox p.box a b) →
      composite imgs ps initOut β a b = (0, 0)) := by
  obtain ⟨ha, -, -, -⟩ := packTrace_success h
  obtain ⟨-, -, hsep⟩ := packAttempt_facts hS ha
  have hdims := runPack_dims hS h
  constructor
  · intro p hp i j hi hj
    have hin : inBox p.box (p.box.x + i) (p.box.y + j) := by
      unfold inBox; omega
    have := composite_covered initOut hsep hdims p hp (p.box.x + i) (p.box.y + j) hin
    rw [this]
    have hxi : p.box.x + i - p.box.x = i := by omega
    have hyj : p.box.y + j - p.box.y = j := by omega
    rw [hxi, hyj]
  · intro β a b hnc
    have hnc' : ∀ p ∈ ps, p.bin = β →
        ¬ inBox (Box.mk p.box.x p.box.y (imgs p.rid).w (imgs p.rid).h) a b := by
      intro p hp hpβ
      obtain ⟨hw, hh⟩ := hdims p hp
      have hbox : Box.mk p.box.x p.box.y (imgs p.rid).w (imgs p.rid).h = p.box := by
        rw [hw, hh]
      rw [hbox]
      exact hnc p hp hpβ
    rw [composite_untouched initOut hnc']
    rfl

/-- Two 2×2 demo images with distinguishable pixels. -/
def demoImgs : Nat → Image := fun i => Image.mk 2 2 (fun a b => (i, 10 * a + b))

/-- The placements the engine produces for the two demo images at size 4. -/
def demoImgPs : List Placement :=
  [Placement.mk 1 0 (Box.mk 2 0 2 2), Placement.mk 0 0 (Box.mk 0 0 2 2)]

theorem bounds_and_compositor_safety_witness :
    (0 : Nat) < 4 ∧ runPack (rectsOf [0, 1] demoImgs) 4 = some (1, demoImgPs) ∧
    ((∀ p ∈ demoImgPs, p.box.x + p.box.w ≤ 4 ∧ p.box.y + p.box.h ≤ 4) ∧
      compositeChecked 4 demoImgs demoImgPs initOut =
        some (composite demoImgs demoImgPs initOut)) :=
  ⟨by decide, by decide,
    @bounds_and_compositor_safety [0, 1] demoImgs 4 1 demoImgPs (by decide) (by decide)⟩

theorem pixel_fidelity_witness :
    (0 : Nat) < 4 ∧ runPack (rectsOf [0, 1] demoImgs) 4 = some (1, demoImgPs) ∧
    ((∀ p ∈ demoImgPs, ∀ i j, i < p.box.w → j < p.box.h →
        composite demoImgs demoImgPs initOut p.bin (p.box.x + i) (p.box.y + j) =
          (demoImgs p.rid).pix i j) ∧
      (∀ β a b, (∀ p ∈ demoImgPs, p.bin = β → ¬ inBox p.box a b) →
        composite demoImgs demoImgPs initOut β a b = (0, 0))) :=
  ⟨by decide, by decide,
    @pixel_fidelity [0, 1] demoImgs 4 1 demoImgPs (by decide) (by decide)⟩

/-- Catalog errors of the spec's error taxonomy (§7). -/
inductive CatalogError where
  | invalidDimension
  | duplicateId
deriving DecidableEq, Repr

/-- Modelled from the spec: the Rectangle Catalog's `add(id, width, height)`
operation (§4.1).  The registration code (`GroupedRectsToPlace::push_rect`)
lives in the external `rectangle_pack` crate and is not part of the
repository, so it is modelled from the spec's words: zero or negative
dimensions are rejected with `InvalidDimension`, an already-registered id is
rejected with `DuplicateId`, and otherwise the rectangle is appended in
insertion order. -/
def addRect (catalog : List Rect) (i : Nat) (w h : Int) :
    Except CatalogError (List Rect) :=
  if w ≤ 0 ∨ h ≤ 0 then .error .invalidDimension
  else if i ∈ catalog.map Rect.rid then .error .duplicateId
  else .ok (catalog ++ [Rect.mk i w.toNat h.toNat])

/-- C9: catalog validation.  Registering a rectangle with zero or negative
width or height fails with `InvalidDimension`; registering an
already-registered id fails with `DuplicateId`; both at registration time. -/
theorem catalog_validation (catalog : List Rect) (i : Nat) (w h : Int) :
    ((w ≤ 0 ∨ h ≤ 0) → addRect catalog i w h = .error .invalidDimension) ∧
    (0 < w → 0 < h → i ∈ catalog.map Rect.rid →
      addRect catalog i w h = .error .duplicateId) := by
  constructor
  · intro hbad
    unfold addRect
    rw [if_pos hbad]
  · intro hw hh hdup
    unfold addRect
    rw [if_neg (by omega), if_pos hdup]

theorem catalog_validation_witness :
    ((0 : Int) ≤ 0 ∨ (3 : Int) ≤ 0) ∧
    addRect [] 5 0 3 = .error .invalidDimension ∧
    (0 : Int) < 2 ∧ 7 ∈ [Rect.mk 7 2 2].map Rect.rid ∧
    addRect [Rect.mk 7 2 2] 7 2 2 = .error .duplicateId :=
  ⟨by decide, (catalog_validation [] 5 0 3).1 (by decide), by decide, by decide,
    (catalog_validation [Rect.mk 7 2 2] 7 2 2).2 (by decide) (by decide) (by decide)⟩

/-- Byte-lexicographic comparison of character lists, as `BTreeMap<String>`
orders its keys. -/
def charsLe : List Char → List Char → Bool
  | [], _ => true
  | _ :: _, [] => false
  | c :: cs, d :: ds =>
      if c.toNat < d.toNat then true
      else if d.toNat < c.toNat then false
      else charsLe cs ds

/-- Lexicographic order on strings. -/
def strLeB (a b : String) : Bool := charsLe a.data b.data

/-- The bin key `format!("atlas{}", j)` of `src/main.rs`. -/
def binName (j : Nat) : String := "atlas" ++ toString j

/-- The bin keys of a successful packing with `k` bins. -/
def atlasNames (k : Nat) : List String := (List.range k).map binName

/-- The iteration order of the `BTreeMap`s keyed by bin name: the keys in
lexicographic order. -/
def lexNames (k : Nat) : List String :=
  List.insertionSort (fun a b => strLeB a b = true) (atlasNames k)

/-- The `idx` value stored with a bin in `output_images` (lines 108-122): its
zero-based position in the lexicographic iteration, which is also the `layer`
recorded in every atlas frame of that bin (`tex_array_id`, lines 183-203). -/
def outputIdx (k : Nat) (name : String) : Nat := (lexNames k).indexOf name

/-- The file name `format!("{}/{}.png", output_dir, name)` of a bin sheet. -/
def sheetFile (dir name : String) : String := dir ++ "/" ++ name ++ ".png"

/-- `atlas_sheet_images` (lines 141-151): iterating `output_images` in
lexicographic key order, pairing each sheet's file name with its `idx`. -/
def sheetFiles (k : Nat) (dir : String) : List (String × Nat) :=
  (lexNames k).enum.map (fun p => (sheetFile dir p.2, p.1))

/-- The ordered file list handed to the external encoder: the sheet files
sorted by `idx` (line 153), file names only. -/
def encoderFiles (k : Nat) (dir : String) : List String :=
  (List.insertionSort (fun a b : String × Nat => a.2 ≤ b.2) (sheetFiles k dir)).map
    Prod.fst

theorem sheetFiles_sorted (k : Nat) (dir : String) :
    (sheetFiles k dir).Pairwise (fun a b => a.2 ≤ b.2) := by
  unfold sheetFiles
  have h1 : (List.range (lexNames k).length).Pairwise (· ≤ ·) :=
    List.pairwise_le_range _
  rw [← List.enum_map_fst] at h1
  have h2 := List.pairwise_map.1 h1
  rw [List.pairwise_map]
  exact h2.imp (fun hab => hab)

theorem encoderFiles_eq (k : Nat) (dir : String) :
    encoderFiles k dir = (lexNames k).map (sheetFile dir) := by
  unfold encoderFiles
  rw [List.Sorted.insertionSort_eq (sheetFiles_sorted k dir)]
  unfold sheetFiles
  rw [List.map_map]
  have hcomp : (Prod.fst ∘ fun p : Nat × String => (sheetFile dir p.2, p.1)) =
      (sheetFile dir) ∘ Prod.snd := rfl
  rw [hcomp, ← List.map_map, List.enum_map_snd]

/-- C10: layer-index consistency.  For every bin of a successful packing —
including runs with more than 10 bins, where the lexicographic key order
diverges from numeric order — the `layer` recorded in that bin's atlas frames
(its `idx`) equals the zero-based position of that bin's sheet file in the
ordered file list passed to the external encoder. -/
theorem layer_index_consistent (k : Nat) (dir name : String)
    (hmem : name ∈ atlasNames k) :
    (encoderFiles k dir)[outputIdx k name]? = some (sheetFile dir name) := by
  have hlex : name ∈ lexNames k :=
    (List.perm_insertionSort _ (atlasNames k)).mem_iff.2 hmem
  have hlt : outputIdx k name < (lexNames k).length :=
    List.indexOf_lt_length.2 hlex
  have hget : (lexNames k)[outputIdx k name]? = some name := by
    rw [List.getElem?_eq_some_iff]
    exact ⟨hlt, List.getElem_indexOf hlt⟩
  rw [encoderFiles_eq, List.getElem?_map, hget, Option.map_some']

theorem layer_index_consistent_witness :
    "atlas2" ∈ atlasNames 11 ∧
    (encoderFiles 11 "out")[outputIdx 11 "atlas2"]? = some (sheetFile "out" "atlas2") :=
  ⟨by decide, layer_index_consistent 11 "out" "atlas2" (by decide)⟩

end TexturePacker
